import Mathlib

/-!
Shallow embedding of `src/ArduinoTrace.h` (brianfaires/ArduinoTrace).

C strings are modelled as `List Char` (the characters before the terminating
null).  The compile-time template recursion `string_maker` is modelled as a
function on the state `(remainingLength, collectedChars)`; the value `none`
models an instantiation on which the partial-specialization choice is
ambiguous (both the separator specialization and the `remainingLength = 0`
specialization match and neither is more specialized), i.e. the translation
unit fails to compile.  Serial output is modelled as a list of stream
operations, and `render` flattens it to the transmitted characters.
-/

set_option maxHeartbeats 1000000

namespace ArduinoTrace

/-- The two path separator characters recognized by the specializations of
`string_maker` (lines 81-93 of the source). -/
def isSeparator (c : Char) : Bool := c == '/' || c == '\\'

/-- Whether the head of the collected character pack is a separator, i.e.
whether one of the two separator partial specializations matches. -/
def headIsSeparator : List Char → Bool
  | [] => false
  | c :: _ => isSeparator c

/-- Source lines 53-55: `constexpr size_t strlen(const char *str)`, counting
characters up to the first null. -/
def strlen : List Char → Nat
  | [] => 0
  | c :: rest => if c = '\x00' then 0 else strlen rest + 1

/-- Source lines 72-98: the recursive template `string_maker`, on the state
`(remainingLength, collectedChars)` over a fixed source string `data`.
When `fullpath = false` (macro `ARDUINOTRACE_ENABLE_FULLPATH == 0`) the two
separator specializations are present: a separator at the head of the
collected pack stops the recursion and the result drops that separator.
When the head is a separator and `remainingLength = 0`, both the separator
specialization and the zero-length specialization match and neither is more
specialized, so the instantiation is ambiguous: modelled as `none`. -/
def string_maker (fullpath : Bool) (data : List Char) : Nat → List Char → Option (List Char)
  | 0, collected =>
      if fullpath = false ∧ headIsSeparator collected = true then none
      else some collected
  | rem + 1, collected =>
      if fullpath = false ∧ headIsSeparator collected = true then some collected.tail
      else string_maker fullpath data rem (data.getD rem '\x00' :: collected)

/-- Source lines 100-102: `make_string`, starting the recursion at
`strlen(data)` with an empty collected pack.  The result models the character
content of the produced `string<...>` (without its terminating null). -/
def make_string (fullpath : Bool) (s : List Char) : Option (List Char) :=
  string_maker fullpath s (strlen s) []

/-- Spec-side description (section 4.1 of the spec): the substring of the
input strictly after the last occurrence of a separator, or the whole input
when no separator occurs. -/
def suffixAfterLastSep (s : List Char) : List Char :=
  (s.reverse.takeWhile (fun c => !isSeparator c)).reverse

/-- Inputs on which the template instantiation is ambiguous: the first
character is a separator and no later character is one. -/
def ambiguousInput : List Char → Bool
  | [] => false
  | c :: rest => isSeparator c && rest.all (fun d => !isSeparator d)

/-- One operation performed on the external serial stream collaborator. -/
inductive StreamOp where
  | print (s : List Char)
  | println (s : List Char)
  | flush
  | begin (bauds : Nat)
deriving DecidableEq

/-- The line terminator appended by the external stream's `println`. -/
def lineTerminator : List Char := ['\r', '\n']

/-- Characters transmitted by a single stream operation. -/
def renderOp : StreamOp → List Char
  | StreamOp.print s => s
  | StreamOp.println s => s ++ lineTerminator
  | StreamOp.flush => []
  | StreamOp.begin _ => []

/-- Characters transmitted by a sequence of stream operations. -/
def render (ops : List StreamOp) : List Char := (ops.map renderOp).flatten

/-- The C truthiness test `content[0]` of line 120: the first character of
the null-terminated string is non-null. -/
def cstrNonEmpty : List Char → Bool
  | [] => false
  | c :: _ => c != '\x00'

/-- Source lines 112-132: the `Printer` constructor body, as the sequence of
stream operations it performs.  `none` models the case where computing the
trimmed file fragment `make_string<TFile>` does not compile. -/
def Printer (fullpath : Bool) (file : List Char) (line : Nat)
    (func content content2 pfx : List Char) : Option (List StreamOp) :=
  (make_string fullpath file).map fun fragment =>
    [StreamOp.print pfx, StreamOp.print fragment,
     StreamOp.print (Nat.repr line).toList, StreamOp.print [':', ' ']]
    ++ (if cstrNonEmpty content then
          [StreamOp.print func, StreamOp.print [':', ' '],
           StreamOp.print content, StreamOp.println content2]
        else
          [StreamOp.println func])
    ++ [StreamOp.flush]

/-- Source line 108: the loop `while (!serial) continue;`, modelled with
explicit fuel.  `ready k` is the stream's readiness at the k-th poll;
the result is the index of the first ready poll, or `none` when the stream
is not ready within `fuel` polls (the loop is still running). -/
def busyWait (ready : Nat → Bool) : Nat → Nat → Option Nat
  | 0, _ => none
  | fuel + 1, k => if ready k then some k else busyWait ready fuel (k + 1)

/-- Source lines 104-110: the `Initializer` constructor: `serial.begin(bauds)`
followed by the busy-wait loop. -/
def Initializer (bauds : Nat) (ready : Nat → Bool) (fuel : Nat) :
    List StreamOp × Option Nat :=
  ([StreamOp.begin bauds], busyWait ready fuel 0)

/-- The two build-time switches relevant to the claims: `ARDUINOTRACE_ENABLE`
and `ARDUINOTRACE_ENABLE_FULLPATH`. -/
structure Config where
  enable : Bool
  fullpath : Bool

/-- Source lines 22-24 and 40-41: both switches default as shown
(`ARDUINOTRACE_ENABLE` defaults to 1, `ARDUINOTRACE_ENABLE_FULLPATH`
defaults to 0, i.e. basename mode). -/
def defaultConfig : Config := { enable := true, fullpath := false }

/-- The plain four-space marker passed as `prefix` by `TRACE`, `DEBUG` and
`DUMP` (lines 150-152). -/
def spacesMarker : List Char := [' ', ' ', ' ', ' ']

/-- The error marker passed as `prefix` by `THROW` (line 153). -/
def errorMarker : List Char := "******* ERROR: ".toList

/-- Source lines 139-145: `ARDUINOTRACE_PRINT`, which declares the local
`__file` source-string type and constructs a `Printer`. -/
def ARDUINOTRACE_PRINT (fullpath : Bool) (pfx file : List Char) (line : Nat)
    (func content content2 : List Char) : Option (List StreamOp) :=
  Printer fullpath file line func content content2 pfx

/-- Source line 150 (enabled) and line 168 (disabled stub): the `TRACE()`
call site.  The macros pass `__FILE__ ":"` as the file argument, hence the
appended colon.  When tracing is disabled the macro expands to nothing:
no stream operations. -/
def TRACE (cfg : Config) (file : List Char) (line : Nat) (func : List Char) :
    Option (List StreamOp) :=
  if cfg.enable then
    ARDUINOTRACE_PRINT cfg.fullpath spacesMarker (file ++ [':']) line func [] []
  else some []

/-- Source line 151 (enabled) and line 172 (disabled stub): `DEBUG(message)`,
with `content = String() + message` and an empty second value. -/
def DEBUG (cfg : Config) (file : List Char) (line : Nat) (func message : List Char) :
    Option (List StreamOp) :=
  if cfg.enable then
    ARDUINOTRACE_PRINT cfg.fullpath spacesMarker (file ++ [':']) line func message []
  else some []

/-- Source line 152 (enabled) and line 169 (disabled stub): `DUMP(variable)`,
with `content` the stringified variable name followed by `" = "` and
`content2` the variable's rendered value. -/
def DUMP (cfg : Config) (file : List Char) (line : Nat)
    (func varName varValue : List Char) : Option (List StreamOp) :=
  if cfg.enable then
    ARDUINOTRACE_PRINT cfg.fullpath spacesMarker (file ++ [':']) line func
      (varName ++ [' ', '=', ' ']) varValue
  else some []

/-- Source line 153: `THROW(message)` in enabled mode, with the error marker
as the printed `prefix` argument. -/
def THROW (cfg : Config) (file : List Char) (line : Nat) (func message : List Char) :
    Option (List StreamOp) :=
  if cfg.enable then
    ARDUINOTRACE_PRINT cfg.fullpath errorMarker (file ++ [':']) line func message []
  else some []

/-- The function-like trace macros in scope when `ARDUINOTRACE_ENABLE == 1`
(source lines 148-164), with their parameter counts, in definition order. -/
def enabledDefines : List (String × Nat) :=
  [("TRACE", 0), ("DEBUG", 1), ("DUMP", 1), ("THROW", 1), ("THROW_DUMP", 2),
   ("PRINT", 1), ("PRINTLN", 1), ("ARDUINOTRACE_INIT", 1)]

/-- The macros defined in the disabled branch (source lines 166-173), in
definition order.  Line 170 defines a one-parameter `THROW` stub and line 171
immediately redefines `THROW` with two parameters; for the preprocessor the
later definition of the same name replaces the earlier one. -/
def disabledDefines : List (String × Nat) :=
  [("ARDUINOTRACE_INIT", 1), ("TRACE", 0), ("DUMP", 1), ("THROW", 1),
   ("THROW", 2), ("DEBUG", 1)]

/-- The parameter count a call site of macro `n` must supply: that of the
last definition of `n`, or `none` when `n` is not defined at all. -/
def defineArity (tbl : List (String × Nat)) (n : String) : Option Nat :=
  ((tbl.filter fun p => p.1 == n).map Prod.snd).getLast?

/-- Reformulation of the `string_maker` recursion as a scan over the list of
characters still to be consumed (the reversed prefix of the source string);
used only inside proofs, with `string_maker_eq_trimScan` as the bridge. -/
def trimScan (fullpath : Bool) : List Char → List Char → Option (List Char)
  | [], collected =>
      if fullpath = false ∧ headIsSeparator collected = true then none
      else some collected
  | c :: t, collected =>
      if fullpath = false ∧ headIsSeparator collected = true then some collected.tail
      else trimScan fullpath t (c :: collected)

theorem strlen_le_length : ∀ s : List Char, strlen s ≤ s.length := by
  intro s
  induction s with
  | nil => simp [strlen]
  | cons c rest ih =>
      by_cases hc : c = '\x00'
      · simp [strlen, hc]
      · simp [strlen, hc]
        exact ih

theorem strlen_eq_length {s : List Char} (h : '\x00' ∉ s) : strlen s = s.length := by
  induction s with
  | nil => rfl
  | cons c rest ih =>
      have hc : c ≠ '\x00' := fun hc => h (hc ▸ List.mem_cons_self c rest)
      have hr : '\x00' ∉ rest := fun hr => h (List.mem_cons_of_mem c hr)
      simp [strlen, hc, ih hr]

theorem headIsSeparator_eq_false {l : List Char}
    (h : ∀ x ∈ l, isSeparator x = false) : headIsSeparator l = false := by
  cases l with
  | nil => rfl
  | cons c t => simpa [headIsSeparator] using h c (List.mem_cons_self c t)

theorem take_reverse_succ {s : List Char} {r : Nat} (hr : r < s.length) :
    (s.take (r + 1)).reverse = s.getD r '\x00' :: (s.take r).reverse := by
  rw [List.take_succ, List.getElem?_eq_getElem hr]
  simp [List.getD_eq_getElem?_getD, List.getElem?_eq_getElem hr]

theorem string_maker_eq_trimScan (fp : Bool) (s : List Char) :
    ∀ rem, rem ≤ s.length → ∀ collected,
      string_maker fp s rem collected = trimScan fp ((s.take rem).reverse) collected := by
  intro rem
  induction rem with
  | zero => intro _ collected; simp [string_maker, trimScan]
  | succ r ih =>
      intro hle collected
      have hr : r < s.length := hle
      rw [take_reverse_succ hr]
      by_cases h : (fp = false ∧ headIsSeparator collected = true)
      · simp [string_maker, trimScan, h]
      · simp [string_maker, trimScan, h, ih (Nat.le_of_lt hr)]

theorem make_string_eq_trimScan {fp : Bool} {s : List Char} (h : '\x00' ∉ s) :
    make_string fp s = trimScan fp s.reverse [] := by
  rw [make_string, string_maker_eq_trimScan fp s (strlen s) (strlen_le_length s),
      strlen_eq_length h, List.take_length]

theorem trimScan_nil (fp : Bool) {collected : List Char}
    (hc : headIsSeparator collected = false) :
    trimScan fp [] collected = some collected := by
  simp [trimScan, hc]

theorem trimScan_push_clean (fp : Bool) :
    ∀ (u v collected : List Char), (∀ x ∈ u, isSeparator x = false) →
      headIsSeparator collected = false →
      trimScan fp (u ++ v) collected = trimScan fp v (u.reverse ++ collected) := by
  intro u
  induction u with
  | nil => intro v collected _ _; simp
  | cons a u ih =>
      intro v collected hu hc
      have ha : isSeparator a = false := hu a (List.mem_cons_self a u)
      have step : trimScan fp ((a :: u) ++ v) collected
          = trimScan fp (u ++ v) (a :: collected) := by
        simp [trimScan, hc]
      rw [step, ih v (a :: collected) (fun x hx => hu x (List.mem_cons_of_mem a hx))
            (by simp [headIsSeparator, ha])]
      simp

theorem trimScan_full : ∀ (t collected : List Char),
    trimScan true t collected = some (t.reverse ++ collected) := by
  intro t
  induction t with
  | nil => intro collected; simp [trimScan]
  | cons c t ih => intro collected; simp [trimScan, ih (c :: collected)]

theorem trimScan_stop_nil {collected : List Char} {c : Char}
    (hc : headIsSeparator collected = false) (hs : isSeparator c = true) :
    trimScan false [c] collected = none := by
  have h1 : trimScan false (c :: ([] : List Char)) collected
      = trimScan false [] (c :: collected) := by simp [trimScan, hc]
  rw [h1]
  simp [trimScan, headIsSeparator, hs]

theorem trimScan_stop_cons {collected w : List Char} {c d : Char}
    (hc : headIsSeparator collected = false) (hs : isSeparator c = true) :
    trimScan false (c :: d :: w) collected = some collected := by
  have h1 : trimScan false (c :: d :: w) collected
      = trimScan false (d :: w) (c :: collected) := by simp [trimScan, hc]
  rw [h1]
  simp [trimScan, headIsSeparator, hs]

theorem trim_clean {s : List Char} (h0 : '\x00' ∉ s)
    (hc : ∀ x ∈ s, isSeparator x = false) :
    make_string false s = some s := by
  rw [make_string_eq_trimScan h0]
  have h1 := trimScan_push_clean false s.reverse [] []
    (fun x hx => hc x (List.mem_reverse.mp hx)) rfl
  simp only [List.append_nil, List.reverse_reverse] at h1
  rw [h1, trimScan_nil false (headIsSeparator_eq_false hc)]

theorem trim_ambiguous {B : List Char} {c : Char}
    (hB : '\x00' ∉ B) (hc : c ≠ '\x00') (hsep : isSeparator c = true)
    (hBclean : ∀ x ∈ B, isSeparator x = false) :
    make_string false (c :: B) = none := by
  have h0 : '\x00' ∉ (c :: B) := by
    intro hmem
    rcases List.mem_cons.mp hmem with h | h
    · exact hc h.symm
    · exact hB h
  rw [make_string_eq_trimScan h0]
  have hrev : (c :: B).reverse = B.reverse ++ [c] := by simp
  rw [hrev, trimScan_push_clean false B.reverse [c] []
    (fun x hx => hBclean x (List.mem_reverse.mp hx)) rfl]
  simp only [List.append_nil, List.reverse_reverse]
  exact trimScan_stop_nil (headIsSeparator_eq_false hBclean) hsep

theorem trim_last_sep {A B : List Char} {c : Char}
    (hA : '\x00' ∉ A) (hB : '\x00' ∉ B) (hc : c ≠ '\x00')
    (hsep : isSeparator c = true) (hBclean : ∀ x ∈ B, isSeparator x = false)
    (hAne : A ≠ []) :
    make_string false (A ++ c :: B) = some B := by
  have h0 : '\x00' ∉ (A ++ c :: B) := by
    intro hmem
    rcases List.mem_append.mp hmem with h | h
    · exact hA h
    · rcases List.mem_cons.mp h with h | h
      · exact hc h.symm
      · exact hB h
  rw [make_string_eq_trimScan h0]
  have hrev : (A ++ c :: B).reverse = B.reverse ++ c :: A.reverse := by
    simp
  rw [hrev, trimScan_push_clean false B.reverse (c :: A.reverse) []
    (fun x hx => hBclean x (List.mem_reverse.mp hx)) rfl]
  simp only [List.append_nil, List.reverse_reverse]
  cases hAr : A.reverse with
  | nil => exact absurd (List.reverse_eq_nil_iff.mp hAr) hAne
  | cons d w =>
      exact trimScan_stop_cons (headIsSeparator_eq_false hBclean) hsep

theorem dropWhile_head_not (p : Char → Bool) :
    ∀ (l : List Char) (c : Char) (r : List Char),
      l.dropWhile p = c :: r → p c = false := by
  intro l
  induction l with
  | nil => intro c r h; simp at h
  | cons a l ih =>
      intro c r h
      by_cases ha : p a = true
      · exact ih c r (by simpa [List.dropWhile_cons, ha] using h)
      · have ha' : p a = false := by simpa using ha
        have h2 : a = c ∧ l = r := by simpa [List.dropWhile_cons, ha'] using h
        rw [← h2.1]
        exact ha'

theorem takeWhile_eq_self (p : Char → Bool) :
    ∀ l : List Char, (∀ x ∈ l, p x = true) → l.takeWhile p = l := by
  intro l
  induction l with
  | nil => intro _; rfl
  | cons a l ih =>
      intro h
      simp [List.takeWhile_cons, h a (List.mem_cons_self a l),
        ih (fun x hx => h x (List.mem_cons_of_mem a hx))]

theorem takeWhile_append_stop (p : Char → Bool) :
    ∀ (u v : List Char) (c : Char), (∀ x ∈ u, p x = true) → p c = false →
      (u ++ c :: v).takeWhile p = u := by
  intro u
  induction u with
  | nil => intro v c _ hc; simp [List.takeWhile_cons, hc]
  | cons a u ih =>
      intro v c hu hc
      simp [List.takeWhile_cons, hu a (List.mem_cons_self a u),
        ih v c (fun x hx => hu x (List.mem_cons_of_mem a hx)) hc]

theorem suffixAfterLastSep_of_clean {s : List Char}
    (hc : ∀ x ∈ s, isSeparator x = false) :
    suffixAfterLastSep s = s := by
  unfold suffixAfterLastSep
  rw [takeWhile_eq_self _ s.reverse
    (fun x hx => by simp [hc x (List.mem_reverse.mp hx)]), List.reverse_reverse]

theorem exists_last_sep_decomp {s : List Char}
    (hs : ∃ x ∈ s, isSeparator x = true) :
    ∃ (A : List Char) (c : Char), isSeparator c = true ∧
      (∀ x ∈ suffixAfterLastSep s, isSeparator x = false) ∧
      s = A ++ c :: suffixAfterLastSep s := by
  cases hd : s.reverse.dropWhile (fun x => !isSeparator x) with
  | nil =>
      exfalso
      obtain ⟨x, hxs, hxsep⟩ := hs
      have h1 : s.reverse.takeWhile (fun x => !isSeparator x) = s.reverse := by
        have h2 := List.takeWhile_append_dropWhile
          (p := fun x => !isSeparator x) (l := s.reverse)
        rw [hd, List.append_nil] at h2
        exact h2
      have hmem : x ∈ s.reverse.takeWhile (fun x => !isSeparator x) := by
        rw [h1]; exact List.mem_reverse.mpr hxs
      have hx := List.mem_takeWhile_imp hmem
      simp [hxsep] at hx
  | cons c A2 =>
      have hc : (fun x => !isSeparator x) c = false :=
        dropWhile_head_not (fun x => !isSeparator x) s.reverse c A2 hd
      have hcsep : isSeparator c = true := by simpa using hc
      refine ⟨A2.reverse, c, hcsep, ?_, ?_⟩
      · intro x hx
        have hx2 : x ∈ s.reverse.takeWhile (fun x => !isSeparator x) := by
          have : x ∈ (s.reverse.takeWhile (fun x => !isSeparator x)).reverse := hx
          exact List.mem_reverse.mp this
        have := List.mem_takeWhile_imp hx2
        simpa using this
      · have h2 := List.takeWhile_append_dropWhile
          (p := fun x => !isSeparator x) (l := s.reverse)
        rw [hd] at h2
        have h3 : s = (s.reverse.takeWhile (fun x => !isSeparator x) ++ c :: A2).reverse := by
          rw [h2, List.reverse_reverse]
        rw [h3]
        simp only [suffixAfterLastSep, List.reverse_reverse]
        rw [takeWhile_append_stop _ _ _ _
          (fun x hx => List.mem_takeWhile_imp hx) hc]
        simp

theorem trim_result_spec {s r : List Char} (h0 : '\x00' ∉ s)
    (h : make_string false s = some r) :
    (∃ t, s = t ++ r) ∧ (∀ x ∈ r, isSeparator x = false) := by
  by_cases hsep : ∃ x ∈ s, isSeparator x = true
  · obtain ⟨A, c, hcsep, hclean, hdecomp⟩ := exists_last_sep_decomp hsep
    have hA0 : '\x00' ∉ A := fun hx =>
      h0 (by rw [hdecomp]; exact List.mem_append.mpr (Or.inl hx))
    have hB0 : '\x00' ∉ suffixAfterLastSep s := fun hx =>
      h0 (by rw [hdecomp]
             exact List.mem_append.mpr (Or.inr (List.mem_cons.mpr (Or.inr hx))))
    have hc0 : c ≠ '\x00' := fun hx =>
      h0 (by rw [hdecomp, ← hx]
             exact List.mem_append.mpr (Or.inr (List.mem_cons_self c _)))
    cases hA : A with
    | nil =>
        exfalso
        rw [hdecomp, hA, List.nil_append,
          trim_ambiguous hB0 hc0 hcsep hclean] at h
        exact Option.noConfusion h
    | cons a A2 =>
        rw [hdecomp, trim_last_sep hA0 hB0 hc0 hcsep hclean (by simp [hA])] at h
        have hr : suffixAfterLastSep s = r := Option.some.inj h
        refine ⟨⟨A ++ [c], ?_⟩, fun x hx => hclean x (hr ▸ hx)⟩
        rw [hdecomp, ← hr]
        simp
  · have hcl : ∀ x ∈ s, isSeparator x = false := by
      intro x hx
      by_contra hcon
      exact hsep ⟨x, hx, by simpa using hcon⟩
    rw [trim_clean h0 hcl] at h
    have hr : s = r := Option.some.inj h
    exact ⟨⟨[], by rw [hr]; simp⟩, fun x hx => hcl x (hr ▸ hx)⟩

/-- C1 (amended): in basename mode, for every compile-time string with no
separator the trimmer returns the input unchanged; for every input on which
the instantiation is unambiguous it returns the substring strictly after the
last occurrence of a separator; and for inputs of the form `A/B` or `A\B`
with `B` separator-free and `A` nonempty it returns exactly `B`.  (Inputs
whose only separator is the very first character make the partial
specialization choice ambiguous, so the claim's universal form fails there:
see the counterexample.) -/
theorem trim_basename_correct :
    (∀ s : List Char, '\x00' ∉ s → (∀ x ∈ s, isSeparator x = false) →
        make_string false s = some s)
    ∧ (∀ s : List Char, '\x00' ∉ s → ambiguousInput s = false →
        make_string false s = some (suffixAfterLastSep s))
    ∧ (∀ (A B : List Char) (c : Char), '\x00' ∉ A → '\x00' ∉ B → c ≠ '\x00' →
        isSeparator c = true → (∀ x ∈ B, isSeparator x = false) → A ≠ [] →
        make_string false (A ++ c :: B) = some B) := by
  refine ⟨fun s h0 hc => trim_clean h0 hc, ?_,
    fun A B c hA hB hc hsep hBclean hAne => trim_last_sep hA hB hc hsep hBclean hAne⟩
  intro s h0 hamb
  by_cases hsep : ∃ x ∈ s, isSeparator x = true
  · obtain ⟨A, c, hcsep, hclean, hdecomp⟩ := exists_last_sep_decomp hsep
    have hA0 : '\x00' ∉ A := fun hx =>
      h0 (by rw [hdecomp]; exact List.mem_append.mpr (Or.inl hx))
    have hB0 : '\x00' ∉ suffixAfterLastSep s := fun hx =>
      h0 (by rw [hdecomp]
             exact List.mem_append.mpr (Or.inr (List.mem_cons.mpr (Or.inr hx))))
    have hc0 : c ≠ '\x00' := fun hx =>
      h0 (by rw [hdecomp, ← hx]
             exact List.mem_append.mpr (Or.inr (List.mem_cons_self c _)))
    have hAne : A ≠ [] := by
      intro hA
      subst hA
      rw [List.nil_append] at hdecomp
      have hall : (suffixAfterLastSep s).all (fun d => !isSeparator d) = true :=
        List.all_eq_true.mpr (fun x hx => by simp [hclean x hx])
      rw [hdecomp] at hamb
      simp [ambiguousInput, hcsep, hall] at hamb
    calc make_string false s
        = make_string false (A ++ c :: suffixAfterLastSep s) := by rw [← hdecomp]
      _ = some (suffixAfterLastSep s) :=
          trim_last_sep hA0 hB0 hc0 hcsep hclean hAne
  · have hcl : ∀ x ∈ s, isSeparator x = false := by
      intro x hx
      by_contra hcon
      exact hsep ⟨x, hx, by simpa using hcon⟩
    rw [trim_clean h0 hcl, suffixAfterLastSep_of_clean hcl]

/-- Witness for C1: on the input "a/b" the trimmer returns "b". -/
theorem trim_basename_correct_witness :
    ('\x00' ∉ ['a']) ∧ ('\x00' ∉ ['b']) ∧ ('/' ≠ '\x00')
    ∧ isSeparator '/' = true ∧ (∀ x ∈ ['b'], isSeparator x = false)
    ∧ (['a'] ≠ ([] : List Char))
    ∧ make_string false (['a'] ++ '/' :: ['b']) = some ['b'] :=
  ⟨by decide, by decide, by decide, by decide, by decide, by decide,
    trim_basename_correct.2.2 ['a'] ['b'] '/' (by decide) (by decide) (by decide)
      (by decide) (by decide) (by decide)⟩

/-- Counterexample for C1 as stated: the input "/b" has the form `A/B` with
`A` empty and `B = "b"` separator-free, so the claim requires the result
"b"; on this input both the separator specialization and the
zero-remaining-length specialization of `string_maker` match and neither is
more specialized, so the instantiation is ambiguous and the translation unit
does not compile (modelled as `none`). -/
theorem trim_basename_cex :
    make_string false ['/', 'b'] = none
    ∧ make_string false ['/', 'b'] ≠ some ['b'] :=
  ⟨by decide, by decide⟩

/-- C4: trimming is idempotent — whenever trimming `s` produces a result,
trimming that result reproduces it. -/
theorem trim_idempotent : ∀ s r : List Char, '\x00' ∉ s →
    make_string false s = some r → make_string false r = some r := by
  intro s r h0 h
  obtain ⟨⟨t, ht⟩, hclean⟩ := trim_result_spec h0 h
  have h0r : '\x00' ∉ r := fun hx =>
    h0 (by rw [ht]; exact List.mem_append.mpr (Or.inr hx))
  exact trim_clean h0r hclean

/-- Witness for C4: trimming "a/b" gives "b", and trimming "b" gives "b"
again. -/
theorem trim_idempotent_witness :
    ('\x00' ∉ ['a', '/', 'b'])
    ∧ make_string false ['a', '/', 'b'] = some ['b']
    ∧ make_string false ['b'] = some ['b'] :=
  ⟨by decide, by decide, trim_idempotent ['a', '/', 'b'] ['b'] (by decide) (by decide)⟩

/-- C5 (amended): the empty input trims to the empty output; every input of
length at least two whose last character is a separator trims to the empty
output; and around two consecutive separators the output is the suffix after
the final separator.  (The single-character inputs "/" and "\" end in a
separator but make the instantiation ambiguous: see the counterexample.) -/
theorem trim_edge_cases :
    make_string false [] = some []
    ∧ (∀ (A : List Char) (c : Char), '\x00' ∉ A → c ≠ '\x00' →
        isSeparator c = true → A ≠ [] → make_string false (A ++ [c]) = some [])
    ∧ (∀ (A B : List Char) (c d : Char), '\x00' ∉ A → '\x00' ∉ B →
        c ≠ '\x00' → d ≠ '\x00' → isSeparator c = true → isSeparator d = true →
        (∀ x ∈ B, isSeparator x = false) →
        make_string false (A ++ c :: d :: B) = some B) := by
  refine ⟨by decide, ?_, ?_⟩
  · intro A c hA hc hsep hAne
    exact trim_last_sep hA (by simp) hc hsep (by simp) hAne
  · intro A B c d hA hB hc hd hcsep hdsep hBclean
    have hAc : '\x00' ∉ A ++ [c] := by
      intro hx
      rcases List.mem_append.mp hx with hx | hx
      · exact hA hx
      · simp at hx; exact hc hx.symm
    have hassoc : A ++ c :: d :: B = (A ++ [c]) ++ d :: B := by simp
    rw [hassoc]
    exact trim_last_sep hAc hB hd hdsep hBclean (by simp)

/-- Witness for C5: "ab/" trims to the empty string, and "a//b" (consecutive
separators) trims to "b". -/
theorem trim_edge_cases_witness :
    make_string false (['a', 'b'] ++ ['/']) = some []
    ∧ make_string false (['a'] ++ '/' :: '/' :: ['b']) = some ['b'] :=
  ⟨trim_edge_cases.2.1 ['a', 'b'] '/' (by decide) (by decide) (by decide) (by decide),
    trim_edge_cases.2.2 ['a'] ['b'] '/' '/' (by decide) (by decide) (by decide)
      (by decide) (by decide) (by decide) (by decide)⟩

/-- Counterexample for C5 as stated: the one-character input "/" ends in a
separator, so the claim requires the empty output; instead the
instantiation is ambiguous and the translation unit does not compile
(modelled as `none`). -/
theorem trim_edge_cases_cex :
    make_string false ['/'] = none ∧ make_string false ['/'] ≠ some [] :=
  ⟨by decide, by decide⟩

/-- C6: with the full-path switch enabled, trimming is the identity on every
compile-time string; and the default configuration is basename mode with
tracing enabled. -/
theorem fullpath_identity :
    (∀ s : List Char, '\x00' ∉ s → make_string true s = some s)
    ∧ defaultConfig.fullpath = false ∧ defaultConfig.enable = true := by
  refine ⟨?_, rfl, rfl⟩
  intro s h0
  rw [make_string_eq_trimScan h0, trimScan_full]
  simp

/-- Witness for C6: in full-path mode "a/b" is returned unchanged. -/
theorem fullpath_identity_witness :
    ('\x00' ∉ ['a', '/', 'b'])
    ∧ make_string true ['a', '/', 'b'] = some ['a', '/', 'b'] :=
  ⟨by decide, fullpath_identity.1 ['a', '/', 'b'] (by decide)⟩

/-- C10: whenever basename-mode trimming produces a result, that result is a
suffix of the input, contains no separator character, and is no longer than
the input. -/
theorem trim_result_is_suffix : ∀ s r : List Char, '\x00' ∉ s →
    make_string false s = some r →
    (∃ t, s = t ++ r) ∧ (∀ x ∈ r, isSeparator x = false)
    ∧ r.length ≤ s.length := by
  intro s r h0 h
  obtain ⟨⟨t, ht⟩, hclean⟩ := trim_result_spec h0 h
  refine ⟨⟨t, ht⟩, hclean, ?_⟩
  rw [ht, List.length_append]
  omega

/-- Witness for C10: trimming "x/y.c" gives "y.c", a separator-free suffix
of the input that is not longer than it. -/
theorem trim_result_is_suffix_witness :
    ('\x00' ∉ ['x', '/', 'y', '.', 'c'])
    ∧ make_string false ['x', '/', 'y', '.', 'c'] = some ['y', '.', 'c']
    ∧ ((∃ t, ['x', '/', 'y', '.', 'c'] = t ++ ['y', '.', 'c'])
        ∧ (∀ x ∈ ['y', '.', 'c'], isSeparator x = false)
        ∧ (['y', '.', 'c'] : List Char).length ≤ (['x', '/', 'y', '.', 'c'] : List Char).length) :=
  ⟨by decide, by decide,
    trim_result_is_suffix ['x', '/', 'y', '.', 'c'] ['y', '.', 'c'] (by decide) (by decide)⟩

/-- C2: every run of the trace emitter transmits exactly the prefix, the
trimmed file fragment, the decimal line number and ": ", followed — when the
label is non-empty — by the function signature, ": ", the label and the value
with a line terminator, and — when the label is empty — by the function
signature alone with a line terminator, the value being ignored. -/
theorem printer_format (fp : Bool) (file : List Char) (line : Nat)
    (func content content2 pfx fragment : List Char) (ops : List StreamOp)
    (hf : make_string fp file = some fragment)
    (hp : Printer fp file line func content content2 pfx = some ops) :
    render ops = pfx ++ fragment ++ (Nat.repr line).toList ++ [':', ' '] ++
      (if cstrNonEmpty content then
        func ++ [':', ' '] ++ content ++ content2 ++ lineTerminator
      else func ++ lineTerminator) := by
  unfold Printer at hp
  rw [hf] at hp
  simp only [Option.map_some'] at hp
  obtain rfl := Option.some.inj hp
  by_cases hcont : cstrNonEmpty content = true
  · simp [render, renderOp, hcont]
  · simp [render, renderOp, hcont]

/-- Witness for C2: the emitter at file "a/b.c:", line 5, function "f" with
an empty label prints "    b.c:5: f" and a line terminator. -/
theorem printer_format_witness :
    make_string false ['a', '/', 'b', '.', 'c', ':'] = some ['b', '.', 'c', ':']
    ∧ Printer false ['a', '/', 'b', '.', 'c', ':'] 5 ['f'] [] [] spacesMarker
      = some [StreamOp.print spacesMarker, StreamOp.print ['b', '.', 'c', ':'],
          StreamOp.print ['5'], StreamOp.print [':', ' '],
          StreamOp.println ['f'], StreamOp.flush]
    ∧ render [StreamOp.print spacesMarker, StreamOp.print ['b', '.', 'c', ':'],
          StreamOp.print ['5'], StreamOp.print [':', ' '],
          StreamOp.println ['f'], StreamOp.flush]
      = spacesMarker ++ ['b', '.', 'c', ':'] ++ (Nat.repr 5).toList ++ [':', ' '] ++
        (if cstrNonEmpty [] then ['f'] ++ [':', ' '] ++ [] ++ [] ++ lineTerminator
         else ['f'] ++ lineTerminator) :=
  ⟨by decide, by decide,
    printer_format false ['a', '/', 'b', '.', 'c', ':'] 5 ['f'] [] [] spacesMarker
      ['b', '.', 'c', ':'] _ (by decide) (by decide)⟩

/-- C3: end-to-end in the default (basename) configuration at file
"/home/user/project/main.c", line 42, function "loop": the empty-label
TRACE emits exactly "    main.c:42: loop" plus a line terminator, DUMP of
variable x with value 7 emits exactly "    main.c:42: loop: x = 7" plus a
line terminator, and THROW with the same location emits a line beginning
with "******* ERROR: " instead of the four spaces. -/
theorem end_to_end_scenarios :
    (TRACE defaultConfig "/home/user/project/main.c".toList 42 "loop".toList).map render
      = some ("    main.c:42: loop".toList ++ lineTerminator)
    ∧ (DUMP defaultConfig "/home/user/project/main.c".toList 42 "loop".toList
        "x".toList "7".toList).map render
      = some ("    main.c:42: loop: x = 7".toList ++ lineTerminator)
    ∧ ∃ rest : List Char,
        (THROW defaultConfig "/home/user/project/main.c".toList 42 "loop".toList
          "x = 7".toList).map render = some (errorMarker ++ rest) :=
  ⟨by decide, by decide,
    ⟨"main.c:42: loop: x = 7".toList ++ lineTerminator, by decide⟩⟩

/-- C7: every run of the trace emitter ends with the flush: the flush is the
last stream operation of the emitted sequence and occurs nowhere before. -/
theorem printer_flush_last (fp : Bool) (file : List Char) (line : Nat)
    (func content content2 pfx : List Char) (ops : List StreamOp)
    (hp : Printer fp file line func content content2 pfx = some ops) :
    ops.getLast? = some StreamOp.flush ∧ StreamOp.flush ∉ ops.dropLast := by
  unfold Printer at hp
  cases hf : make_string fp file with
  | none => rw [hf] at hp; simp at hp
  | some fragment =>
      rw [hf] at hp
      simp only [Option.map_some'] at hp
      obtain rfl := Option.some.inj hp
      by_cases hcont : cstrNonEmpty content = true
      · constructor
        · rw [List.getLast?_concat]
        · rw [List.dropLast_concat]
          simp [hcont]
      · constructor
        · rw [List.getLast?_concat]
        · rw [List.dropLast_concat]
          simp [hcont]

/-- Witness for C7: a concrete emitter run whose last operation is the
flush, with no flush earlier. -/
theorem printer_flush_last_witness :
    Printer false ['m', '.', 'c', ':'] 3 ['g'] ['v', ' ', '=', ' '] ['9'] spacesMarker
      = some [StreamOp.print spacesMarker, StreamOp.print ['m', '.', 'c', ':'],
          StreamOp.print ['3'], StreamOp.print [':', ' '],
          StreamOp.print ['g'], StreamOp.print [':', ' '],
          StreamOp.print ['v', ' ', '=', ' '], StreamOp.println ['9'],
          StreamOp.flush]
    ∧ ([StreamOp.print spacesMarker, StreamOp.print ['m', '.', 'c', ':'],
        StreamOp.print ['3'], StreamOp.print [':', ' '],
        StreamOp.print ['g'], StreamOp.print [':', ' '],
        StreamOp.print ['v', ' ', '=', ' '], StreamOp.println ['9'],
        StreamOp.flush].getLast? = some StreamOp.flush
      ∧ StreamOp.flush ∉ [StreamOp.print spacesMarker, StreamOp.print ['m', '.', 'c', ':'],
          StreamOp.print ['3'], StreamOp.print [':', ' '],
          StreamOp.print ['g'], StreamOp.print [':', ' '],
          StreamOp.print ['v', ' ', '=', ' '], StreamOp.println ['9'],
          StreamOp.flush].dropLast) :=
  ⟨by decide,
    printer_flush_last false ['m', '.', 'c', ':'] 3 ['g'] ['v', ' ', '=', ' '] ['9']
      spacesMarker _ (by decide)⟩

/-- C8 (code bug evidence): with tracing disabled, the stubbed macros
TRACE, DUMP and DEBUG expand to nothing — no stream operations, no bytes,
no trimmed-literal buffer — but the disabled branch defines THROW twice,
and the later two-parameter definition (source line 171) replaces the
one-parameter stub of line 170, so a one-argument THROW call site that is
valid in enabled mode does not compile in disabled mode, and THROW_DUMP has
no disabled definition at all. -/
theorem disabled_mode_behavior :
    (∀ (fp : Bool) (file : List Char) (line : Nat) (func vn vv msg : List Char),
      TRACE { enable := false, fullpath := fp } file line func = some []
      ∧ DUMP { enable := false, fullpath := fp } file line func vn vv = some []
      ∧ DEBUG { enable := false, fullpath := fp } file line func msg = some []
      ∧ render [] = [])
    ∧ defineArity enabledDefines "THROW" = some 1
    ∧ defineArity disabledDefines "THROW" = some 2
    ∧ defineArity disabledDefines "THROW_DUMP" = none
    ∧ defineArity disabledDefines "TRACE" = some 0
    ∧ defineArity disabledDefines "DUMP" = some 1
    ∧ defineArity disabledDefines "DEBUG" = some 1 := by
  refine ⟨?_, by decide, by decide, by decide, by decide, by decide, by decide⟩
  intro fp file line func vn vv msg
  exact ⟨rfl, rfl, rfl, rfl⟩

/-- C9: the stream initializer first invokes the stream's start-up sequence
with the given speed, then busy-waits: it never returns while the stream is
not ready (for however much fuel the loop is given), and when it returns it
does so at the first poll at which the stream reports ready. -/
theorem initializer_contract :
    ∀ (bauds : Nat) (ready : Nat → Bool) (fuel : Nat),
      (Initializer bauds ready fuel).1 = [StreamOp.begin bauds]
      ∧ ((∀ k, ready k = false) → (Initializer bauds ready fuel).2 = none)
      ∧ (∀ n, (Initializer bauds ready fuel).2 = some n →
          ready n = true ∧ ∀ m, m < n → ready m = false) := by
  have hnone : ∀ (ready : Nat → Bool), (∀ k, ready k = false) →
      ∀ fuel k, busyWait ready fuel k = none := by
    intro ready hnever fuel
    induction fuel with
    | zero => intro k; rfl
    | succ f ih => intro k; simp [busyWait, hnever k, ih (k + 1)]
  have hsome : ∀ (ready : Nat → Bool) (fuel k n : Nat),
      busyWait ready fuel k = some n →
      ready n = true ∧ ∀ m, k ≤ m → m < n → ready m = false := by
    intro ready fuel
    induction fuel with
    | zero => intro k n h; simp [busyWait] at h
    | succ f ih =>
        intro k n h
        by_cases hk : ready k = true
        · rw [busyWait, if_pos hk] at h
          obtain rfl := Option.some.inj h
          exact ⟨hk, fun m hm1 hm2 => absurd hm2 (Nat.not_lt.mpr hm1)⟩
        · have hk' : ready k = false := by simpa using hk
          rw [busyWait, if_neg hk] at h
          obtain ⟨h1, h2⟩ := ih (k + 1) n h
          refine ⟨h1, fun m hm1 hm2 => ?_⟩
          rcases Nat.eq_or_lt_of_le hm1 with heq | hlt
          · rw [← heq]; exact hk'
          · exact h2 m hlt hm2
  intro bauds ready fuel
  refine ⟨rfl, fun h => hnone ready h fuel 0, fun n hn => ?_⟩
  obtain ⟨h1, h2⟩ := hsome ready fuel 0 n hn
  exact ⟨h1, fun m hm => h2 m (Nat.zero_le m) hm⟩

/-- Witness for C9: with a stream that first reports ready at the second
poll, the initializer performs `begin 9600` and the wait loop exits at poll
index 1, having observed not-ready at poll 0; a never-ready stream makes
the loop run out of any amount of fuel. -/
theorem initializer_contract_witness :
    (Initializer 9600 (fun k => decide (k = 1)) 3).1 = [StreamOp.begin 9600]
    ∧ (Initializer 9600 (fun _ => false) 5).2 = none
    ∧ (Initializer 9600 (fun k => decide (k = 1)) 3).2 = some 1
    ∧ ((fun k => decide (k = 1)) 1 = true
        ∧ ∀ m, m < 1 → (fun k => decide (k = 1)) m = false) :=
  ⟨(initializer_contract 9600 (fun k => decide (k = 1)) 3).1,
    (initializer_contract 9600 (fun _ => false) 5).2.1 (fun _ => rfl),
    by decide,
    (initializer_contract 9600 (fun k => decide (k = 1)) 3).2.2 1 (by decide)⟩

end ArduinoTrace
